import Mathlib

/-!
# Dining philosophers (`server.go`): lock ordering, mutual exclusion, progress

The Go program builds a ring of `numPhilosophers` mutexes ("chopsticks") and
as many philosophers, starts one goroutine per philosopher running `dine`, and
waits on a `sync.WaitGroup`.

Embedding.

* A `*sync.Mutex` is the index of the mutex in the slice `chopsticks` built by
  `main` (two pointers are equal iff the indices are), and a mutex is a `Bool`
  (`true` = locked): Go's mutex records no owner.
* The ring size and the cycle limit, the constants `numPhilosophers = 5` and
  `maxEatCycles = 3` of the source, are parameters `P` and `C` of the
  definitions, so that statements can range over every configuration.  The
  source builds for every `P ≥ 1` only: with `numPhilosophers = 0` the
  expressions `% numPhilosophers` (lines 51 and 113) are constant divisions
  by zero, which the Go compiler refuses.
* Go's `int` is a 64-bit integer; the only arithmetic is `p.id + 1` with
  `p.id < P` and `p.timesEaten + 1` with `p.timesEaten < C`, which do not
  overflow for any slice length Go can allocate, so `Nat` is used.
* A goroutine running `dine` is a `Task`: the philosopher it runs on, a program
  point, and the stack of deferred `Unlock` calls of the current `eat` frame.
  `Task.next` is one atomic step of that goroutine and names the action it
  performs on the shared state.  Printing and sleeping have no effect on
  the state and are left out (the field `name` is used for printing only).
* `step` composes the tasks with the mutexes: `Lock` is enabled only on an
  unlocked mutex (otherwise the goroutine blocks), `Unlock` only on a locked one
  (the Go runtime aborts on unlocking an unlocked mutex).
-/

namespace DiningPhilosophers

/-! ## Constants and data model -/

/-- The constant `numPhilosophers` (line 11). -/
def numPhilosophers : Nat := 5

/-- The constant `maxEatCycles` (line 12). -/
def maxEatCycles : Nat := 3

/-- The struct `Philosopher` (lines 16-22); the mutex pointers are indices into
`chopsticks`. -/
structure Philosopher where
  id : Nat
  leftChopstick : Nat
  rightChopstick : Nat
  timesEaten : Nat
deriving DecidableEq

/-- The four locals `firstChopstick, firstID, secondChopstick, secondID` of
`eat` (lines 53-54). -/
structure EatOrder where
  firstChopstick : Nat
  firstID : Nat
  secondChopstick : Nat
  secondID : Nat
deriving DecidableEq

/-- Lines 50-68 of `eat`: the lock order chosen from `p.id`. -/
def eatOrder (P : Nat) (p : Philosopher) : EatOrder :=
  let leftChopstickID := p.id
  let rightChopstickID := (p.id + 1) % P
  if leftChopstickID < rightChopstickID then
    { firstChopstick := p.leftChopstick
      firstID := leftChopstickID
      secondChopstick := p.rightChopstick
      secondID := rightChopstickID }
  else
    { firstChopstick := p.rightChopstick
      firstID := rightChopstickID
      secondChopstick := p.leftChopstick
      secondID := leftChopstickID }

/-! ## One goroutine -/

/-- Program points of a goroutine running `dine`. -/
inductive PC where
  /-- At the loop condition of `dine` (line 28). -/
  | dineLoop
  /-- In `eat`, at `firstChopstick.Lock()` (line 72). -/
  | lockFirst
  /-- In `eat`, at `secondChopstick.Lock()` (line 78). -/
  | lockSecond
  /-- In `eat`, holding both locks (lines 84-90). -/
  | eating
  /-- At the end of `eat` (line 92): the deferred calls run, last one first. -/
  | returning
  /-- The function `dine` has returned. -/
  | finished
deriving DecidableEq

/-- What a step of a goroutine does to the world outside its own frame. -/
inductive Action where
  /-- The call `p.think()` (line 29). -/
  | think
  /-- The call `Lock()` on the mutex `m` returned. -/
  | lock (m : Nat)
  /-- The call `Unlock()` on the mutex `m`. -/
  | unlock (m : Nat)
  /-- The philosopher ate: lines 84-90, with `p.timesEaten++`. -/
  | eat
  /-- The call of `eat` returned to `dine`. -/
  | eatReturn
  /-- The deferred `wg.Done()` of `dine` (line 26). -/
  | wgDone
deriving DecidableEq

/-- A goroutine running `self.dine(&wg)`: its program point and the stack of
mutexes whose `Unlock` the current call of `eat` has deferred (most recent
first). -/
structure Task where
  self : Philosopher
  pc : PC
  defers : List Nat
deriving DecidableEq

/-- The goroutine started by `go philosophers[i].dine(&wg)` (line 124). -/
def Task.start (p : Philosopher) : Task :=
  { self := p, pc := PC.dineLoop, defers := [] }

/-- One step of a goroutine, with the action it performs; `none` once `dine`
has returned.  `P` is `numPhilosophers`, `C` is `maxEatCycles`.

* `dineLoop`: the condition `p.timesEaten < maxEatCycles`; when true, `think`
  and the entry of `eat` up to line 71; when false, line 32 and the deferred
  `wg.Done()`.
* `lockFirst`, `lockSecond`: the `Lock()` and the `defer ... Unlock()` that
  follows it (lines 72-75 and 78-81).
* `eating`: lines 84-90.
* `returning`: the most recently deferred `Unlock` runs; with none left `eat`
  returns to the loop of `dine`. -/
def Task.next (P C : Nat) (t : Task) : Option (Action × Task) :=
  match t.pc with
  | PC.dineLoop =>
    if t.self.timesEaten < C then
      some (Action.think, { t with pc := PC.lockFirst })
    else
      some (Action.wgDone, { t with pc := PC.finished })
  | PC.lockFirst =>
    let m := (eatOrder P t.self).firstChopstick
    some (Action.lock m, { t with pc := PC.lockSecond, defers := m :: t.defers })
  | PC.lockSecond =>
    let m := (eatOrder P t.self).secondChopstick
    some (Action.lock m, { t with pc := PC.eating, defers := m :: t.defers })
  | PC.eating =>
    some (Action.eat,
      { t with self := { t.self with timesEaten := t.self.timesEaten + 1 }, pc := PC.returning })
  | PC.returning =>
    match t.defers with
    | m :: ds => some (Action.unlock m, { t with defers := ds })
    | [] => some (Action.eatReturn, { t with pc := PC.dineLoop })
  | PC.finished => none

/-- The goroutine holds the mutex `c`: it has locked it and not yet unlocked it.
Every `Lock()` of `eat` is followed at once by the `defer` of its `Unlock()`,
so these are the mutexes on the defer stack. -/
def Task.holds (t : Task) (c : Nat) : Prop := c ∈ t.defers

instance (t : Task) (c : Nat) : Decidable (t.holds c) := by
  unfold Task.holds; infer_instance

/-- The goroutine runs alone and every `Lock()` returns: the actions of at most
`fuel` steps from `t`, and the task reached. -/
def Task.run (P C : Nat) : Nat → Task → List Action × Task
  | 0, t => ([], t)
  | fuel + 1, t =>
    match t.next P C with
    | none => ([], t)
    | some (a, t') => let r := Task.run P C fuel t'; (a :: r.1, r.2)

/-- The method `dine` run on `p` with every `Lock()` returning. -/
def dine (P C fuel : Nat) (p : Philosopher) : List Action × Task :=
  Task.run P C fuel (Task.start p)

/-! ## The whole program -/

/-- The state of the program once `main` has started the goroutines: the
mutexes (`true` = locked), the goroutines, the counter of the wait group. -/
structure Sim where
  chopsticks : List Bool
  tasks : List Task
  wg : Int
deriving DecidableEq

/-- Lines 101-104 of `main`: `P` fresh (unlocked) mutexes. -/
def chopsticks (P : Nat) : List Bool := List.replicate P false

/-- Lines 107-115 of `main`: philosopher `i` gets `chopsticks[i]` and
`chopsticks[(i+1) % P]`; `timesEaten` is the zero value. -/
def philosophers (P : Nat) : List Philosopher :=
  (List.range P).map fun i =>
    { id := i, leftChopstick := i, rightChopstick := (i + 1) % P, timesEaten := 0 }

/-- The function `main` up to line 125: mutexes, philosophers, `wg.Add(P)`, and
one goroutine per philosopher.  There is no check of `P` or of the cycle
limit anywhere in the source, and none here. -/
def main (P : Nat) : Sim :=
  { chopsticks := chopsticks P
    tasks := (philosophers P).map Task.start
    wg := (P : Int) }

/-- The goroutine `i` takes its next step in the state `s`; `none` when there is
no such goroutine, when it has returned, when it is blocked in `Lock()` on a
locked mutex, or when it would unlock an unlocked mutex. -/
def step (P C : Nat) (i : Nat) (s : Sim) : Option Sim :=
  match s.tasks[i]? with
  | none => none
  | some t =>
    match t.next P C with
    | none => none
    | some (Action.lock m, t') =>
      if s.chopsticks[m]? = some false then
        some { s with chopsticks := s.chopsticks.set m true, tasks := s.tasks.set i t' }
      else none
    | some (Action.unlock m, t') =>
      if s.chopsticks[m]? = some true then
        some { s with chopsticks := s.chopsticks.set m false, tasks := s.tasks.set i t' }
      else none
    | some (Action.wgDone, t') =>
      some { s with tasks := s.tasks.set i t', wg := s.wg - 1 }
    | some (_, t') => some { s with tasks := s.tasks.set i t' }

/-- The states the program can reach from `main P` by steps of its goroutines,
in any interleaving. -/
inductive Reachable (P C : Nat) : Sim → Prop where
  | init : Reachable P C (main P)
  | step {s s' : Sim} (i : Nat) : Reachable P C s → step P C i s = some s' → Reachable P C s'

/-- Runs the goroutines in the order given by `sched`; `none` if one of them
cannot take its step. -/
def runSchedule (P C : Nat) : List Nat → Sim → Option Sim
  | [], s => some s
  | i :: sched, s =>
    match step P C i s with
    | none => none
    | some s' => runSchedule P C sched s'

/-- The goroutine `i` is in the "using" state: it holds both its chopsticks. -/
def Sim.isUsing (s : Sim) (i : Nat) : Prop :=
  ∃ t : Task, s.tasks[i]? = some t ∧ t.holds t.self.leftChopstick ∧ t.holds t.self.rightChopstick

/-- Some goroutine has not returned from `dine`. -/
def Sim.unfinished (s : Sim) : Prop :=
  ∃ (i : Nat) (t : Task), s.tasks[i]? = some t ∧ t.pc ≠ PC.finished

/-! ## Invariants, the cycle of the specification, and sample states -/

/-- The seven kinds of step of `Task.next`. -/
inductive NextCase (P C : Nat) (t : Task) : Action → Task → Prop where
  | think : t.pc = PC.dineLoop → t.self.timesEaten < C →
      NextCase P C t Action.think { t with pc := PC.lockFirst }
  | wgDone : t.pc = PC.dineLoop → ¬ t.self.timesEaten < C →
      NextCase P C t Action.wgDone { t with pc := PC.finished }
  | lockFirst : t.pc = PC.lockFirst →
      NextCase P C t (Action.lock (eatOrder P t.self).firstChopstick)
        { t with pc := PC.lockSecond, defers := (eatOrder P t.self).firstChopstick :: t.defers }
  | lockSecond : t.pc = PC.lockSecond →
      NextCase P C t (Action.lock (eatOrder P t.self).secondChopstick)
        { t with pc := PC.eating, defers := (eatOrder P t.self).secondChopstick :: t.defers }
  | eat : t.pc = PC.eating →
      NextCase P C t Action.eat
        { t with self := { t.self with timesEaten := t.self.timesEaten + 1 }, pc := PC.returning }
  | unlock (m : Nat) (ds : List Nat) : t.pc = PC.returning → t.defers = m :: ds →
      NextCase P C t (Action.unlock m) { t with defers := ds }
  | eatReturn : t.pc = PC.returning → t.defers = [] →
      NextCase P C t Action.eatReturn { t with pc := PC.dineLoop }

/-- How a step of goroutine `i` from `t` to `t'` changes the mutexes and the
defer stack. -/
inductive Effect (s s' : Sim) (t t' : Task) : Prop where
  | lock (m : Nat) : s.chopsticks[m]? = some false → s'.chopsticks = s.chopsticks.set m true →
      t'.defers = m :: t.defers → Effect s s' t t'
  | unlock (m : Nat) : s.chopsticks[m]? = some true → s'.chopsticks = s.chopsticks.set m false →
      t.defers = m :: t'.defers → Effect s s' t t'
  | silent : s'.chopsticks = s.chopsticks → t'.defers = t.defers → Effect s s' t t'

/-- The mutexes and the defer stacks agree, and no mutex is on two stacks or
twice on one. -/
structure Locks (s : Sim) : Prop where
  held_of_locked : ∀ c : Nat, s.chopsticks[c]? = some true →
    ∃ (i : Nat) (t : Task), s.tasks[i]? = some t ∧ t.holds c
  locked_of_held : ∀ (i : Nat) (t : Task) (c : Nat), s.tasks[i]? = some t → t.holds c →
    s.chopsticks[c]? = some true
  exclusive : ∀ (i j : Nat) (ti tj : Task) (c : Nat), s.tasks[i]? = some ti →
    s.tasks[j]? = some tj → ti.holds c → tj.holds c → i = j
  nodup : ∀ (i : Nat) (t : Task), s.tasks[i]? = some t → t.defers.Nodup

/-- Goroutine `i` runs on the philosopher `philosophers[i]` built by `main`. -/
def Wired (P i : Nat) (t : Task) : Prop :=
  t.self.id = i ∧ t.self.leftChopstick = i ∧ t.self.rightChopstick = (i + 1) % P

/-- The defer stack of a goroutine at each program point. -/
def Task.Shape (P : Nat) (t : Task) : Prop :=
  match t.pc with
  | PC.dineLoop => t.defers = []
  | PC.lockFirst => t.defers = []
  | PC.lockSecond => t.defers = [(eatOrder P t.self).firstChopstick]
  | PC.eating =>
    t.defers = [(eatOrder P t.self).secondChopstick, (eatOrder P t.self).firstChopstick]
  | PC.returning =>
    t.defers = [(eatOrder P t.self).secondChopstick, (eatOrder P t.self).firstChopstick] ∨
    t.defers = [(eatOrder P t.self).firstChopstick] ∨ t.defers = []
  | PC.finished => t.defers = []

/-- The meals eaten so far, at each program point, against the cycle limit. -/
def Task.Meals (C : Nat) (t : Task) : Prop :=
  match t.pc with
  | PC.dineLoop => t.self.timesEaten ≤ C
  | PC.lockFirst => t.self.timesEaten < C
  | PC.lockSecond => t.self.timesEaten < C
  | PC.eating => t.self.timesEaten < C
  | PC.returning => t.self.timesEaten ≤ C
  | PC.finished => t.self.timesEaten = C

/-- The invariant of the reachable states. -/
structure Inv (P : Nat) (s : Sim) : Prop where
  tasks_length : s.tasks.length = P
  chopsticks_length : s.chopsticks.length = P
  wired : ∀ (i : Nat) (t : Task), s.tasks[i]? = some t → Wired P i t
  shape : ∀ (i : Nat) (t : Task), s.tasks[i]? = some t → t.Shape P
  locks : Locks s

/-- Philosophers 0 to 3 of five hold their first chopstick and philosopher 4
waits for chopstick 0. -/
def nearDeadlock : Sim :=
  { chopsticks := [true, true, true, true, false]
    tasks := [⟨⟨0, 0, 1, 0⟩, PC.lockSecond, [0]⟩, ⟨⟨1, 1, 2, 0⟩, PC.lockSecond, [1]⟩,
      ⟨⟨2, 2, 3, 0⟩, PC.lockSecond, [2]⟩, ⟨⟨3, 3, 4, 0⟩, PC.lockSecond, [3]⟩,
      ⟨⟨4, 4, 0, 0⟩, PC.lockFirst, []⟩]
    wg := 5 }

/-- The order of the events of one think/eat cycle, as the specification gives
it: think, acquire first, acquire second, use, release second, release first,
and back to the loop. -/
def specCycle (P : Nat) (p : Philosopher) : List Action :=
  [Action.think, Action.lock (eatOrder P p).firstChopstick,
    Action.lock (eatOrder P p).secondChopstick, Action.eat,
    Action.unlock (eatOrder P p).secondChopstick,
    Action.unlock (eatOrder P p).firstChopstick, Action.eatReturn]

/-- The events of `n` cycles in a row. -/
def specCycles (P : Nat) (p : Philosopher) : Nat → List Action
  | 0 => []
  | n + 1 => specCycle P p ++ specCycles P p n

/-- Philosopher `p` has the chopstick `c` as its left or right one. -/
def Philosopher.references (p : Philosopher) (c : Nat) : Bool :=
  decide (p.leftChopstick = c) || decide (p.rightChopstick = c)

/-- With one philosopher: it has locked its only chopstick as the first one and
is at the `Lock()` of the same mutex as the second one. -/
def selfDeadlock : Sim :=
  { chopsticks := [true]
    tasks := [⟨⟨0, 0, 0, 0⟩, PC.lockSecond, [0]⟩]
    wg := 1 }

/-- Five philosophers and a cycle limit of 0: every goroutine has returned. -/
def allFinished : Sim :=
  { chopsticks := [false, false, false, false, false]
    tasks := [⟨⟨0, 0, 1, 0⟩, PC.finished, []⟩, ⟨⟨1, 1, 2, 0⟩, PC.finished, []⟩,
      ⟨⟨2, 2, 3, 0⟩, PC.finished, []⟩, ⟨⟨3, 3, 4, 0⟩, PC.finished, []⟩,
      ⟨⟨4, 4, 0, 0⟩, PC.finished, []⟩]
    wg := 0 }

/-- Philosopher 0 of five is eating. -/
def zeroEating : Sim :=
  { chopsticks := [true, true, false, false, false]
    tasks := [⟨⟨0, 0, 1, 0⟩, PC.eating, [1, 0]⟩, ⟨⟨1, 1, 2, 0⟩, PC.dineLoop, []⟩,
      ⟨⟨2, 2, 3, 0⟩, PC.dineLoop, []⟩, ⟨⟨3, 3, 4, 0⟩, PC.dineLoop, []⟩,
      ⟨⟨4, 4, 0, 0⟩, PC.dineLoop, []⟩]
    wg := 5 }

/-- Philosophers 0 and 2 of five are eating, philosopher 4 waits for chopstick 0. -/
def twoEating : Sim :=
  { chopsticks := [true, true, true, true, false]
    tasks := [⟨⟨0, 0, 1, 0⟩, PC.eating, [1, 0]⟩, ⟨⟨1, 1, 2, 0⟩, PC.lockFirst, []⟩,
      ⟨⟨2, 2, 3, 0⟩, PC.eating, [3, 2]⟩, ⟨⟨3, 3, 4, 0⟩, PC.dineLoop, []⟩,
      ⟨⟨4, 4, 0, 0⟩, PC.lockFirst, []⟩]
    wg := 5 }

/-- Two philosophers: philosopher 1 holds chopstick 0, philosopher 0 waits for it. -/
def oneHolding : Sim :=
  { chopsticks := [true, false]
    tasks := [⟨⟨0, 0, 1, 0⟩, PC.lockFirst, []⟩, ⟨⟨1, 1, 0, 0⟩, PC.lockSecond, [0]⟩]
    wg := 2 }

/-! ## Lemmas -/

theorem next_cases {P C : Nat} {t t' : Task} {a : Action}
    (h : t.next P C = some (a, t')) : NextCase P C t a t' := by
  obtain ⟨self, pc, defers⟩ := t
  cases pc
  · by_cases hc : self.timesEaten < C
    · simp [Task.next, hc] at h
      obtain ⟨rfl, rfl⟩ := h
      exact NextCase.think rfl hc
    · simp [Task.next, hc] at h
      obtain ⟨rfl, rfl⟩ := h
      exact NextCase.wgDone rfl hc
  · simp [Task.next] at h
    obtain ⟨rfl, rfl⟩ := h
    exact NextCase.lockFirst rfl
  · simp [Task.next] at h
    obtain ⟨rfl, rfl⟩ := h
    exact NextCase.lockSecond rfl
  · simp [Task.next] at h
    obtain ⟨rfl, rfl⟩ := h
    exact NextCase.eat rfl
  · cases defers with
    | nil =>
      simp [Task.next] at h
      obtain ⟨rfl, rfl⟩ := h
      exact NextCase.eatReturn rfl rfl
    | cons m ds =>
      simp [Task.next] at h
      obtain ⟨rfl, rfl⟩ := h
      exact NextCase.unlock m ds rfl rfl
  · simp [Task.next] at h

theorem step_spec {P C i : Nat} {s s' : Sim} (h : step P C i s = some s') :
    ∃ t a t', s.tasks[i]? = some t ∧ t.next P C = some (a, t') ∧
      s'.tasks = s.tasks.set i t' ∧ Effect s s' t t' := by
  unfold step at h
  cases ht : s.tasks[i]? with
  | none => simp [ht] at h
  | some t =>
    cases hn : t.next P C with
    | none => simp [ht, hn] at h
    | some r =>
      obtain ⟨a, t'⟩ := r
      refine ⟨t, a, t', rfl, hn, ?_⟩
      simp only [ht, hn] at h
      have hc := next_cases hn
      cases hc with
      | think _ _ => simp at h; subst h; exact ⟨rfl, Effect.silent rfl rfl⟩
      | wgDone _ _ => simp at h; subst h; exact ⟨rfl, Effect.silent rfl rfl⟩
      | lockFirst _ =>
        simp at h; obtain ⟨hg, rfl⟩ := h; exact ⟨rfl, Effect.lock _ hg rfl rfl⟩
      | lockSecond _ =>
        simp at h; obtain ⟨hg, rfl⟩ := h; exact ⟨rfl, Effect.lock _ hg rfl rfl⟩
      | eat _ => simp at h; subst h; exact ⟨rfl, Effect.silent rfl rfl⟩
      | unlock m ds _ hd =>
        simp at h; obtain ⟨hg, rfl⟩ := h; exact ⟨rfl, Effect.unlock _ hg rfl hd⟩
      | eatReturn _ _ => simp at h; subst h; exact ⟨rfl, Effect.silent rfl rfl⟩

theorem getElem?_set_some {α : Type} {l : List α} {i j : Nat} {a b u : α}
    (hi : l[i]? = some a) :
    (l.set i b)[j]? = some u ↔ (j = i ∧ u = b) ∨ (j ≠ i ∧ l[j]? = some u) := by
  have hlt : i < l.length := by
    rcases Nat.lt_or_ge i l.length with h | h
    · exact h
    · rw [List.getElem?_eq_none h] at hi; cases hi
  rw [List.getElem?_set]
  by_cases h : i = j
  · subst h
    simp [hlt, eq_comm]
  · have h' : j ≠ i := fun e => h e.symm
    simp [h, h']

theorem main_task {P i : Nat} {t : Task} (h : (main P).tasks[i]? = some t) :
    i < P ∧ t = Task.start
      { id := i, leftChopstick := i, rightChopstick := (i + 1) % P, timesEaten := 0 } := by
  simp only [main, philosophers, List.map_map, List.getElem?_map, Option.map_eq_some'] at h
  obtain ⟨k, hk, rfl⟩ := h
  rw [List.getElem?_eq_some] at hk
  obtain ⟨hlt, rfl⟩ := hk
  simp at hlt
  simp [hlt]

theorem main_chopsticks {P c : Nat} {b : Bool} (h : (main P).chopsticks[c]? = some b) :
    c < P ∧ b = false := by
  simp only [main, chopsticks, List.getElem?_replicate] at h
  by_cases hc : c < P
  · simp [hc] at h; exact ⟨hc, h⟩
  · simp [hc] at h

theorem locks_main (P : Nat) : Locks (main P) where
  held_of_locked c h := by
    have := (main_chopsticks h).2
    cases this
  locked_of_held i t c h hc := by
    obtain ⟨_, rfl⟩ := main_task h
    simp [Task.holds, Task.start] at hc
  exclusive i j ti tj c hi _ hc _ := by
    obtain ⟨_, rfl⟩ := main_task hi
    simp [Task.holds, Task.start] at hc
  nodup i t h := by
    obtain ⟨_, rfl⟩ := main_task h
    simp [Task.start]

theorem locks_step {P C i : Nat} {s s' : Sim} (hs : Locks s)
    (h : step P C i s = some s') : Locks s' := by
  obtain ⟨t, a, t', ht, -, hts, he⟩ := step_spec h
  have hiff : ∀ (j : Nat) (u : Task),
      s'.tasks[j]? = some u ↔ (j = i ∧ u = t') ∨ (j ≠ i ∧ s.tasks[j]? = some u) := by
    intro j u; rw [hts]; exact getElem?_set_some ht
  cases he with
  | lock m hg hc hd =>
    have hfree : ∀ (j : Nat) (u : Task), s.tasks[j]? = some u → ¬ u.holds m := by
      intro j u hu hm
      have := hs.locked_of_held j u m hu hm
      rw [hg] at this; cases this
    have hmlt : m < s.chopsticks.length := by
      rcases Nat.lt_or_ge m s.chopsticks.length with h | h
      · exact h
      · rw [List.getElem?_eq_none h] at hg; cases hg
    have hck : ∀ c : Nat, s'.chopsticks[c]? = some true ↔
        c = m ∨ s.chopsticks[c]? = some true := by
      intro c; rw [hc, List.getElem?_set]
      by_cases e : m = c
      · subst e; simp [hmlt]
      · have e' : c ≠ m := fun x => e x.symm
        simp [e, e']
    constructor
    · intro c hl
      rcases (hck c).1 hl with rfl | hl
      · exact ⟨i, t', (hiff i t').2 (Or.inl ⟨rfl, rfl⟩), by simp [Task.holds, hd]⟩
      · obtain ⟨j, u, hu, hh⟩ := hs.held_of_locked c hl
        by_cases e : j = i
        · subst e
          rw [ht] at hu; cases hu
          exact ⟨j, t', (hiff j t').2 (Or.inl ⟨rfl, rfl⟩), by
            simp only [Task.holds, hd] at hh ⊢; exact List.mem_cons_of_mem _ hh⟩
        · exact ⟨j, u, (hiff j u).2 (Or.inr ⟨e, hu⟩), hh⟩
    · intro j u c hu hh
      rw [hck]
      rcases (hiff j u).1 hu with ⟨rfl, rfl⟩ | ⟨_, hu⟩
      · simp only [Task.holds, hd, List.mem_cons] at hh
        rcases hh with rfl | hh
        · exact Or.inl rfl
        · exact Or.inr (hs.locked_of_held _ t c ht hh)
      · exact Or.inr (hs.locked_of_held _ u c hu hh)
    · intro j k tj tk c hj hk hcj hck'
      rcases (hiff j tj).1 hj with ⟨rfl, rfl⟩ | ⟨ej, hj⟩ <;>
        rcases (hiff k tk).1 hk with ⟨rfl, rfl⟩ | ⟨ek, hk⟩
      · rfl
      · simp only [Task.holds, hd, List.mem_cons] at hcj
        rcases hcj with rfl | hcj
        · exact absurd hck' (hfree _ _ hk)
        · exact hs.exclusive _ _ _ _ c ht hk hcj hck'
      · simp only [Task.holds, hd, List.mem_cons] at hck'
        rcases hck' with rfl | hck'
        · exact absurd hcj (hfree _ _ hj)
        · exact hs.exclusive _ _ _ _ c hj ht hcj hck'
      · exact hs.exclusive _ _ _ _ c hj hk hcj hck'
    · intro j u hu
      rcases (hiff j u).1 hu with ⟨rfl, rfl⟩ | ⟨_, hu⟩
      · rw [hd, List.nodup_cons]
        exact ⟨hfree _ _ ht, hs.nodup _ _ ht⟩
      · exact hs.nodup _ _ hu
  | unlock m hg hc hd =>
    have hnd := hs.nodup _ _ ht
    rw [hd, List.nodup_cons] at hnd
    have hmlt : m < s.chopsticks.length := by
      rcases Nat.lt_or_ge m s.chopsticks.length with h | h
      · exact h
      · rw [List.getElem?_eq_none h] at hg; cases hg
    have hck : ∀ c : Nat, s'.chopsticks[c]? = some true ↔
        c ≠ m ∧ s.chopsticks[c]? = some true := by
      intro c; rw [hc, List.getElem?_set]
      by_cases e : m = c
      · subst e; simp [hmlt]
      · have e' : c ≠ m := fun x => e x.symm
        simp [e, e']
    have hm : t.holds m := by simp [Task.holds, hd]
    constructor
    · intro c hl
      obtain ⟨hne, hl⟩ := (hck c).1 hl
      obtain ⟨j, u, hu, hh⟩ := hs.held_of_locked c hl
      by_cases e : j = i
      · subst e
        rw [ht] at hu; cases hu
        refine ⟨j, t', (hiff j t').2 (Or.inl ⟨rfl, rfl⟩), ?_⟩
        simp only [Task.holds, hd, List.mem_cons] at hh ⊢
        rcases hh with rfl | hh
        · exact absurd rfl hne
        · exact hh
      · exact ⟨j, u, (hiff j u).2 (Or.inr ⟨e, hu⟩), hh⟩
    · intro j u c hu hh
      rw [hck]
      rcases (hiff j u).1 hu with ⟨rfl, rfl⟩ | ⟨e, hu⟩
      · have hh' : t.holds c := by
          simp only [Task.holds, hd]; exact List.mem_cons_of_mem _ hh
        refine ⟨?_, hs.locked_of_held _ t c ht hh'⟩
        rintro rfl
        exact hnd.1 hh
      · refine ⟨?_, hs.locked_of_held _ u c hu hh⟩
        rintro rfl
        exact e (hs.exclusive _ _ _ _ _ hu ht hh hm)
    · intro j k tj tk c hj hk hcj hck'
      have up : ∀ (j : Nat) (u : Task), s'.tasks[j]? = some u → u.holds c →
          ∃ v : Task, s.tasks[j]? = some v ∧ v.holds c := by
        intro j u hu hh
        rcases (hiff j u).1 hu with ⟨rfl, rfl⟩ | ⟨_, hu⟩
        · exact ⟨t, ht, by simp only [Task.holds, hd]; exact List.mem_cons_of_mem _ hh⟩
        · exact ⟨u, hu, hh⟩
      obtain ⟨vj, hvj, hhj⟩ := up j tj hj hcj
      obtain ⟨vk, hvk, hhk⟩ := up k tk hk hck'
      exact hs.exclusive _ _ _ _ c hvj hvk hhj hhk
    · intro j u hu
      rcases (hiff j u).1 hu with ⟨rfl, rfl⟩ | ⟨_, hu⟩
      · exact hnd.2
      · exact hs.nodup _ _ hu
  | silent hc hd =>
    have up : ∀ (j : Nat) (u : Task), s'.tasks[j]? = some u →
        ∃ v : Task, s.tasks[j]? = some v ∧ v.defers = u.defers := by
      intro j u hu
      rcases (hiff j u).1 hu with ⟨rfl, rfl⟩ | ⟨_, hu⟩
      · exact ⟨t, ht, hd.symm⟩
      · exact ⟨u, hu, rfl⟩
    have down : ∀ (j : Nat) (v : Task), s.tasks[j]? = some v →
        ∃ u : Task, s'.tasks[j]? = some u ∧ u.defers = v.defers := by
      intro j v hv
      by_cases e : j = i
      · subst e
        rw [ht] at hv; cases hv
        exact ⟨t', (hiff j t').2 (Or.inl ⟨rfl, rfl⟩), hd⟩
      · exact ⟨v, (hiff j v).2 (Or.inr ⟨e, hv⟩), rfl⟩
    constructor
    · intro c hl
      rw [hc] at hl
      obtain ⟨j, v, hv, hh⟩ := hs.held_of_locked c hl
      obtain ⟨u, hu, hdu⟩ := down j v hv
      exact ⟨j, u, hu, by simp only [Task.holds, hdu] at hh ⊢; exact hh⟩
    · intro j u c hu hh
      rw [hc]
      obtain ⟨v, hv, hdv⟩ := up j u hu
      exact hs.locked_of_held j v c hv (by simp only [Task.holds, hdv] at hh ⊢; exact hh)
    · intro j k tj tk c hj hk hcj hck'
      obtain ⟨vj, hvj, hdj⟩ := up j tj hj
      obtain ⟨vk, hvk, hdk⟩ := up k tk hk
      exact hs.exclusive j k vj vk c hvj hvk
        (by simp only [Task.holds, hdj] at hcj ⊢; exact hcj)
        (by simp only [Task.holds, hdk] at hck' ⊢; exact hck')
    · intro j u hu
      obtain ⟨v, hv, hdv⟩ := up j u hu
      rw [← hdv]; exact hs.nodup _ _ hv

theorem eatOrder_timesEaten (P : Nat) (p : Philosopher) (n : Nat) :
    eatOrder P { p with timesEaten := n } = eatOrder P p := rfl

theorem wired_next {P C i : Nat} {t t' : Task} {a : Action} (hw : Wired P i t)
    (h : NextCase P C t a t') : Wired P i t' := by
  cases h <;> exact hw

theorem shape_next {P C : Nat} {t t' : Task} {a : Action} (hs : t.Shape P)
    (h : NextCase P C t a t') : t'.Shape P := by
  cases h with
  | think hpc _ => simpa [Task.Shape, hpc] using hs
  | wgDone hpc _ => simpa [Task.Shape, hpc] using hs
  | lockFirst hpc =>
    simp only [Task.Shape, hpc] at hs
    simp [Task.Shape, hs]
  | lockSecond hpc =>
    simp only [Task.Shape, hpc] at hs
    simp [Task.Shape, hs]
  | eat hpc =>
    simp only [Task.Shape, hpc] at hs
    simp only [Task.Shape, eatOrder_timesEaten]
    exact Or.inl hs
  | unlock m ds hpc hd =>
    simp only [Task.Shape, hpc, hd] at hs
    simp only [Task.Shape, hpc]
    rcases hs with hs | hs | hs
    · simp only [List.cons.injEq] at hs
      exact Or.inr (Or.inl hs.2)
    · simp only [List.cons.injEq] at hs
      exact Or.inr (Or.inr hs.2)
    · cases hs
  | eatReturn hpc hd =>
    simp only [Task.Shape]
    exact hd

theorem inv_main (P : Nat) : Inv P (main P) where
  tasks_length := by simp [main, philosophers]
  chopsticks_length := by simp [main, chopsticks]
  wired i t h := by
    obtain ⟨_, rfl⟩ := main_task h
    exact ⟨rfl, rfl, rfl⟩
  shape i t h := by
    obtain ⟨_, rfl⟩ := main_task h
    simp [Task.Shape, Task.start]
  locks := locks_main P

theorem inv_step {P C i : Nat} {s s' : Sim} (hs : Inv P s)
    (h : step P C i s = some s') : Inv P s' := by
  obtain ⟨t, a, t', ht, hn, hts, he⟩ := step_spec h
  have hc := next_cases hn
  have hiff : ∀ (j : Nat) (u : Task),
      s'.tasks[j]? = some u ↔ (j = i ∧ u = t') ∨ (j ≠ i ∧ s.tasks[j]? = some u) := by
    intro j u; rw [hts]; exact getElem?_set_some ht
  constructor
  · rw [hts, List.length_set]; exact hs.tasks_length
  · cases he with
    | lock m _ hc' _ => rw [hc', List.length_set]; exact hs.chopsticks_length
    | unlock m _ hc' _ => rw [hc', List.length_set]; exact hs.chopsticks_length
    | silent hc' _ => rw [hc']; exact hs.chopsticks_length
  · intro j u hu
    rcases (hiff j u).1 hu with ⟨rfl, rfl⟩ | ⟨_, hu⟩
    · exact wired_next (hs.wired _ _ ht) hc
    · exact hs.wired _ _ hu
  · intro j u hu
    rcases (hiff j u).1 hu with ⟨rfl, rfl⟩ | ⟨_, hu⟩
    · exact shape_next (hs.shape _ _ ht) hc
    · exact hs.shape _ _ hu
  · exact locks_step hs.locks h

theorem inv_reachable {P C : Nat} {s : Sim} (h : Reachable P C s) : Inv P s := by
  induction h with
  | init => exact inv_main P
  | step i _ hst ih => exact inv_step ih hst

theorem ring_ne {P i : Nat} (hP : 2 ≤ P) (hi : i < P) : i ≠ (i + 1) % P := by
  rcases Nat.lt_or_ge (i + 1) P with h | h
  · rw [Nat.mod_eq_of_lt h]; omega
  · have e : i + 1 = P := by omega
    rw [e, Nat.mod_self]; omega

theorem ring_lt {P : Nat} (hP : 2 ≤ P) (i : Nat) : (i + 1) % P < P :=
  Nat.mod_lt _ (by omega)

theorem eatOrder_wired {P i : Nat} {t : Task} (hw : Wired P i t) :
    (eatOrder P t.self).firstChopstick = min i ((i + 1) % P) ∧
    (eatOrder P t.self).firstID = min i ((i + 1) % P) ∧
    (eatOrder P t.self).secondChopstick = max i ((i + 1) % P) ∧
    (eatOrder P t.self).secondID = max i ((i + 1) % P) := by
  obtain ⟨h1, h2, h3⟩ := hw
  unfold eatOrder
  simp only [h1, h2, h3]
  by_cases h : i < (i + 1) % P
  · simp only [h, if_true]
    refine ⟨?_, ?_, ?_, ?_⟩ <;> omega
  · simp only [h, if_false]
    refine ⟨?_, ?_, ?_, ?_⟩ <;> omega

theorem step_dineLoop {P C i : Nat} {s : Sim} {t : Task} (ht : s.tasks[i]? = some t)
    (hpc : t.pc = PC.dineLoop) : (step P C i s).isSome := by
  by_cases hc : t.self.timesEaten < C <;> simp [step, ht, Task.next, hpc, hc]

theorem step_eating {P C i : Nat} {s : Sim} {t : Task} (ht : s.tasks[i]? = some t)
    (hpc : t.pc = PC.eating) : (step P C i s).isSome := by
  simp [step, ht, Task.next, hpc]

theorem step_returning {P C i : Nat} {s : Sim} {t : Task} (ht : s.tasks[i]? = some t)
    (hpc : t.pc = PC.returning)
    (hl : ∀ c : Nat, t.holds c → s.chopsticks[c]? = some true) : (step P C i s).isSome := by
  cases hd : t.defers with
  | nil => simp [step, ht, Task.next, hpc, hd]
  | cons m ds =>
    have := hl m (by simp [Task.holds, hd])
    simp [step, ht, Task.next, hpc, hd, this]

theorem step_lockFirst {P C i : Nat} {s : Sim} {t : Task} (ht : s.tasks[i]? = some t)
    (hpc : t.pc = PC.lockFirst)
    (hf : s.chopsticks[(eatOrder P t.self).firstChopstick]? = some false) :
    (step P C i s).isSome := by
  simp [step, ht, Task.next, hpc, hf]

theorem step_lockSecond {P C i : Nat} {s : Sim} {t : Task} (ht : s.tasks[i]? = some t)
    (hpc : t.pc = PC.lockSecond)
    (hf : s.chopsticks[(eatOrder P t.self).secondChopstick]? = some false) :
    (step P C i s).isSome := by
  simp [step, ht, Task.next, hpc, hf]

theorem exists_max_of_bounded (p : Nat → Prop) (f : Nat → Nat) (P : Nat)
    (h : ∃ i, i < P ∧ p i) : ∃ i, i < P ∧ p i ∧ ∀ j, j < P → p j → f j ≤ f i := by
  classical
  obtain ⟨i, hi, hpi⟩ := h
  have hne : (Finset.filter p (Finset.range P)).Nonempty := ⟨i, by simp [hi, hpi]⟩
  obtain ⟨k, hk, hmax⟩ := Finset.exists_max_image _ f hne
  simp only [Finset.mem_filter, Finset.mem_range] at hk
  exact ⟨k, hk.1, hk.2, fun j hj hpj => hmax j (by simp [hj, hpj])⟩

theorem task_index_lt {P : Nat} {s : Sim} (hs : Inv P s) {i : Nat} {t : Task}
    (ht : s.tasks[i]? = some t) : i < P := by
  rcases Nat.lt_or_ge i s.tasks.length with h | h
  · rw [← hs.tasks_length]; exact h
  · rw [List.getElem?_eq_none h] at ht; cases ht

/-- A mutex of the ring is unlocked unless some goroutine holds it. -/
theorem free_of_not_held {P : Nat} {s : Sim} (hs : Inv P s) {c : Nat} (hc : c < P)
    (h : ∀ (j : Nat) (u : Task), s.tasks[j]? = some u → ¬ u.holds c) :
    s.chopsticks[c]? = some false := by
  have hlt : c < s.chopsticks.length := by rw [hs.chopsticks_length]; exact hc
  rw [List.getElem?_eq_getElem hlt]
  cases hb : s.chopsticks[c] with
  | false => rfl
  | true =>
    have : s.chopsticks[c]? = some true := by rw [List.getElem?_eq_getElem hlt, hb]
    obtain ⟨j, u, hu, hh⟩ := hs.locks.held_of_locked c this
    exact absurd hh (h j u hu)

/-- Progress: in a state satisfying the invariant, with at least two
philosophers, some goroutine can step unless all have returned. -/
theorem progress {P C : Nat} (hP : 2 ≤ P) {s : Sim} (hs : Inv P s)
    (hu : s.unfinished) : ∃ i, (step P C i s).isSome := by
  -- a goroutine that is not at a `Lock()` can always step
  by_cases hfree : ∃ (i : Nat) (t : Task), s.tasks[i]? = some t ∧
      (t.pc = PC.dineLoop ∨ t.pc = PC.eating ∨ t.pc = PC.returning)
  · obtain ⟨i, t, ht, hpc | hpc | hpc⟩ := hfree
    · exact ⟨i, step_dineLoop ht hpc⟩
    · exact ⟨i, step_eating ht hpc⟩
    · exact ⟨i, step_returning ht hpc (fun c hc => hs.locks.locked_of_held i t c ht hc)⟩
  · -- every goroutine is at a `Lock()` or has returned
    have hall : ∀ (i : Nat) (t : Task), s.tasks[i]? = some t →
        t.pc = PC.lockFirst ∨ t.pc = PC.lockSecond ∨ t.pc = PC.finished := by
      intro i t ht
      have := fun h => hfree ⟨i, t, ht, h⟩
      cases hpc : t.pc <;> simp_all
    -- a holder of any mutex is at its second `Lock()` and holds its first mutex
    have hholder : ∀ (j : Nat) (u : Task) (c : Nat), s.tasks[j]? = some u → u.holds c →
        u.pc = PC.lockSecond ∧ c = min j ((j + 1) % P) := by
      intro j u c hu hh
      have hsh := hs.shape j u hu
      rcases hall j u hu with hpc | hpc | hpc
      · simp only [Task.Shape, hpc] at hsh
        simp [Task.holds, hsh] at hh
      · simp only [Task.Shape, hpc] at hsh
        simp only [Task.holds, hsh, List.mem_singleton] at hh
        exact ⟨hpc, by rw [hh, (eatOrder_wired (hs.wired j u hu)).1]⟩
      · simp only [Task.Shape, hpc] at hsh
        simp [Task.holds, hsh] at hh
    by_cases hsec : ∃ (i : Nat), i < P ∧ ∃ t : Task, s.tasks[i]? = some t ∧ t.pc = PC.lockSecond
    · -- the goroutine waiting for the highest second mutex can take it
      obtain ⟨i, hi, ⟨t, ht, hpc⟩, hmax⟩ :=
        exists_max_of_bounded (fun i => ∃ t : Task, s.tasks[i]? = some t ∧ t.pc = PC.lockSecond)
          (fun i => max i ((i + 1) % P)) P hsec
      refine ⟨i, step_lockSecond ht hpc ?_⟩
      have hw := eatOrder_wired (hs.wired i t ht)
      rw [hw.2.2.1]
      apply free_of_not_held hs
      · have := ring_lt hP i; omega
      · intro j u hu hh
        obtain ⟨hpcj, hc⟩ := hholder j u _ hu hh
        have hj := task_index_lt hs hu
        have h1 := hmax j hj ⟨u, hu, hpcj⟩
        have h2 := ring_ne hP hj
        simp only at h1
        omega
    · -- nobody holds anything, and an unfinished goroutine is at its first `Lock()`
      obtain ⟨i, t, ht, hne⟩ := hu
      have hi := task_index_lt hs ht
      have hpc : t.pc = PC.lockFirst := by
        rcases hall i t ht with h | h | h
        · exact h
        · exact absurd ⟨i, hi, t, ht, h⟩ hsec
        · exact absurd h hne
      refine ⟨i, step_lockFirst ht hpc ?_⟩
      have hw := eatOrder_wired (hs.wired i t ht)
      rw [hw.1]
      apply free_of_not_held hs
      · have := ring_lt hP i; omega
      · intro j u hu hh
        obtain ⟨hpcj, _⟩ := hholder j u _ hu hh
        exact hsec ⟨j, task_index_lt hs hu, u, hu, hpcj⟩

theorem reachable_runSchedule {P C : Nat} (sched : List Nat) {s s' : Sim}
    (hs : Reachable P C s) (h : runSchedule P C sched s = some s') : Reachable P C s' := by
  induction sched generalizing s with
  | nil => simp only [runSchedule, Option.some.injEq] at h; exact h ▸ hs
  | cons i rest ih =>
    simp only [runSchedule] at h
    cases hst : step P C i s with
    | none => simp [hst] at h
    | some s1 =>
      rw [hst] at h
      exact ih (Reachable.step i hs hst) h

theorem shape_length {P : Nat} {t : Task} (h : t.Shape P) : t.defers.length ≤ 2 := by
  unfold Task.Shape at h
  split at h
  · simp [h]
  · simp [h]
  · simp [h]
  · simp [h]
  · rcases h with h | h | h <;> simp [h]
  · simp [h]

theorem eatOrder_ids (P : Nat) (p : Philosopher) :
    (eatOrder P p).firstID = min p.id ((p.id + 1) % P) ∧
    (eatOrder P p).secondID = max p.id ((p.id + 1) % P) := by
  unfold eatOrder
  by_cases h : p.id < (p.id + 1) % P
  · simp only [h, if_true]; constructor <;> omega
  · simp only [h, if_false]; constructor <;> omega

theorem philosophers_getElem? {P i : Nat} (hi : i < P) :
    (philosophers P)[i]? =
      some { id := i, leftChopstick := i, rightChopstick := (i + 1) % P, timesEaten := 0 } := by
  simp [philosophers, List.getElem?_map, List.getElem?_range hi]

theorem philosophers_wired {P i : Nat} {p : Philosopher} (h : (philosophers P)[i]? = some p) :
    i < P ∧ p = { id := i, leftChopstick := i, rightChopstick := (i + 1) % P, timesEaten := 0 } := by
  have hi : i < P := by
    rcases Nat.lt_or_ge i (philosophers P).length with h' | h'
    · simpa [philosophers] using h'
    · rw [List.getElem?_eq_none h'] at h; cases h
  rw [philosophers_getElem? hi] at h
  exact ⟨hi, by cases h; rfl⟩

theorem shape_first_mem {P : Nat} {t : Task} (h : t.Shape P) (hne : t.defers ≠ []) :
    t.holds (eatOrder P t.self).firstChopstick := by
  unfold Task.Shape at h
  unfold Task.holds
  split at h
  · exact absurd h hne
  · exact absurd h hne
  · simp [h]
  · simp [h]
  · rcases h with h | h | h
    · simp [h]
    · simp [h]
    · exact absurd h hne
  · exact absurd h hne

theorem run_cycle (P C n : Nat) (p : Philosopher) (h : p.timesEaten < C) :
    Task.run P C (n + 7) (Task.start p) =
      (specCycle P p ++
          (Task.run P C n (Task.start { p with timesEaten := p.timesEaten + 1 })).1,
        (Task.run P C n (Task.start { p with timesEaten := p.timesEaten + 1 })).2) := by
  simp [Task.run, Task.next, Task.start, h, specCycle, eatOrder_timesEaten]

theorem run_exit (P C n : Nat) (p : Philosopher) (h : ¬ p.timesEaten < C) :
    Task.run P C (n + 1) (Task.start p) =
      ([Action.wgDone], { self := p, pc := PC.finished, defers := [] }) := by
  cases n <;> simp [Task.run, Task.next, Task.start, h]

theorem specCycles_timesEaten (P : Nat) (p : Philosopher) (k n : Nat) :
    specCycles P { p with timesEaten := k } n = specCycles P p n := by
  induction n with
  | zero => rfl
  | succ n ih => simp only [specCycles, ih]; rfl

theorem run_dine (P : Nat) (d : Nat) : ∀ (C fuel : Nat) (p : Philosopher),
    p.timesEaten + d = C → 7 * d + 1 ≤ fuel →
    Task.run P C fuel (Task.start p) =
      (specCycles P p d ++ [Action.wgDone],
        { self := { p with timesEaten := C }, pc := PC.finished, defers := [] }) := by
  induction d with
  | zero =>
    intro C fuel p hC hf
    obtain ⟨n, rfl⟩ : ∃ n, fuel = n + 1 := ⟨fuel - 1, by omega⟩
    rw [run_exit P C n p (by omega)]
    have : p.timesEaten = C := by omega
    subst this
    rfl
  | succ d ih =>
    intro C fuel p hC hf
    obtain ⟨n, rfl⟩ : ∃ n, fuel = n + 7 := ⟨fuel - 7, by omega⟩
    rw [run_cycle P C n p (by omega)]
    rw [ih C n { p with timesEaten := p.timesEaten + 1 } (by simp only; omega) (by omega)]
    simp only [specCycles, specCycles_timesEaten, List.append_assoc]

theorem count_eat_specCycles (P : Nat) (p : Philosopher) (n : Nat) :
    (specCycles P p n).count Action.eat = n := by
  induction n with
  | zero => rfl
  | succ n ih =>
    simp only [specCycles, List.count_append, ih, specCycle]
    simp [List.count_cons]
    omega

theorem count_wgDone_specCycles (P : Nat) (p : Philosopher) (n : Nat) :
    (specCycles P p n).count Action.wgDone = 0 := by
  induction n with
  | zero => rfl
  | succ n ih =>
    simp only [specCycles, List.count_append, ih, specCycle]
    simp [List.count_cons]

theorem ring_pred {P c : Nat} (hP : 2 ≤ P) (hc : c < P) :
    ∃ j, j < P ∧ (j + 1) % P = c ∧ j ≠ c ∧ ∀ k, k < P → (k + 1) % P = c → k = j := by
  rcases Nat.eq_zero_or_pos c with h0 | hpos
  · subst h0
    refine ⟨P - 1, by omega, ?_, by omega, ?_⟩
    · have e : P - 1 + 1 = P := by omega
      rw [e, Nat.mod_self]
    · intro k hk hmod
      rcases Nat.lt_or_ge (k + 1) P with h | h
      · rw [Nat.mod_eq_of_lt h] at hmod; omega
      · omega
  · refine ⟨c - 1, by omega, ?_, by omega, ?_⟩
    · have e : c - 1 + 1 = c := by omega
      rw [e, Nat.mod_eq_of_lt hc]
    · intro k hk hmod
      rcases Nat.lt_or_ge (k + 1) P with h | h
      · rw [Nat.mod_eq_of_lt h] at hmod; omega
      · have e : k + 1 = P := by omega
        rw [e, Nat.mod_self] at hmod; omega

theorem count_references {P c : Nat} (hP : 2 ≤ P) (hc : c < P) :
    ((philosophers P).filter (fun p => p.references c)).length = 2 := by
  obtain ⟨j, hj, hjc, hne, huniq⟩ := ring_pred hP hc
  have h1 : ((philosophers P).filter (fun p => p.references c)).length =
      ((List.range P).filter (fun k => decide (k = c) || decide ((k + 1) % P = c))).length := by
    simp only [philosophers, List.filter_map, List.length_map]
    rfl
  rw [h1]
  have h2 : ((List.range P).filter (fun k => decide (k = c) || decide ((k + 1) % P = c))).length =
      (Finset.filter (fun k => k = c ∨ (k + 1) % P = c) (Finset.range P)).card := by
    rw [← List.toFinset_card_of_nodup (List.Nodup.filter _ (List.nodup_range P))]
    congr 1
    ext k
    simp
  rw [h2]
  have h3 : Finset.filter (fun k => k = c ∨ (k + 1) % P = c) (Finset.range P) = {c, j} := by
    ext k
    simp only [Finset.mem_filter, Finset.mem_range, Finset.mem_insert, Finset.mem_singleton]
    constructor
    · rintro ⟨hk, rfl | hmod⟩
      · exact Or.inl rfl
      · exact Or.inr (huniq k hk hmod)
    · rintro (rfl | rfl)
      · exact ⟨hc, Or.inl rfl⟩
      · exact ⟨hj, Or.inr hjc⟩
  rw [h3]
  exact Finset.card_pair (fun e => hne e.symm)

theorem meals_next {P C : Nat} {t t' : Task} {a : Action} (hm : t.Meals C)
    (h : NextCase P C t a t') : t'.Meals C := by
  cases h with
  | think hpc hlt => simpa [Task.Meals] using hlt
  | wgDone hpc hge =>
    simp only [Task.Meals, hpc] at hm
    simp only [Task.Meals]
    omega
  | lockFirst hpc => simpa [Task.Meals, hpc] using hm
  | lockSecond hpc => simpa [Task.Meals, hpc] using hm
  | eat hpc =>
    simp only [Task.Meals, hpc] at hm
    simp only [Task.Meals]
    omega
  | unlock m ds hpc hd => simpa [Task.Meals, hpc] using hm
  | eatReturn hpc hd => simpa [Task.Meals, hpc] using hm

theorem meals_reachable {P C : Nat} {s : Sim} (h : Reachable P C s) :
    ∀ (i : Nat) (t : Task), s.tasks[i]? = some t → t.Meals C := by
  induction h with
  | init =>
    intro i t ht
    obtain ⟨_, rfl⟩ := main_task ht
    simp [Task.Meals, Task.start]
  | step k _ hst ih =>
    intro i t ht
    obtain ⟨u, a, u', hu, hn, hts, -⟩ := step_spec hst
    rw [hts, getElem?_set_some hu] at ht
    rcases ht with ⟨rfl, rfl⟩ | ⟨_, ht⟩
    · exact meals_next (ih _ u hu) (next_cases hn)
    · exact ih _ t ht

theorem meals_le {C : Nat} {t : Task} (h : t.Meals C) :
    t.self.timesEaten ≤ C ∧ (t.pc = PC.finished → t.self.timesEaten = C) := by
  unfold Task.Meals at h
  split at h <;> rename_i hpc <;> simp only [hpc] <;> constructor <;>
    first
      | omega
      | (intro h'; cases h')

theorem idle_reachable {P : Nat} {s : Sim} (h : Reachable P 0 s) :
    ∀ (i : Nat) (t : Task), s.tasks[i]? = some t → t.pc = PC.dineLoop ∨ t.pc = PC.finished := by
  induction h with
  | init =>
    intro i t ht
    obtain ⟨_, rfl⟩ := main_task ht
    exact Or.inl rfl
  | step k _ hst ih =>
    rename_i s1 s2
    intro i t ht
    obtain ⟨u, a, u', hu, hn, hts, -⟩ := step_spec hst
    rw [hts, getElem?_set_some hu] at ht
    rcases ht with ⟨rfl, rfl⟩ | ⟨_, ht⟩
    · have hpc := ih _ u hu
      cases next_cases hn with
      | think _ hlt => exact absurd hlt (Nat.not_lt_zero _)
      | wgDone _ _ => exact Or.inr rfl
      | lockFirst h => rw [h] at hpc; simp at hpc
      | lockSecond h => rw [h] at hpc; simp at hpc
      | eat h => rw [h] at hpc; simp at hpc
      | unlock m ds h _ => rw [h] at hpc; simp at hpc
      | eatReturn h _ => rw [h] at hpc; simp at hpc
    · exact ih _ t ht

/-! ## The claims -/

/-- Claim C1.  For every ring size `P ≥ 2` and every philosopher with `id < P`, the
identifiers `eat` computes from `leftChopstickID = id` and
`rightChopstickID = (id + 1) % P` satisfy `firstID < secondID`, `firstID` is
the smaller and `secondID` the larger of the two; for the last philosopher
(`id = P - 1`) the right identifier wraps to 0, so `firstID = 0` and
`secondID = P - 1`. -/
theorem acquisition_order (P : Nat) (hP : 2 ≤ P) (p : Philosopher) (hid : p.id < P) :
    (eatOrder P p).firstID < (eatOrder P p).secondID ∧
    (eatOrder P p).firstID = min p.id ((p.id + 1) % P) ∧
    (eatOrder P p).secondID = max p.id ((p.id + 1) % P) ∧
    (p.id = P - 1 → (p.id + 1) % P = 0 ∧
      (eatOrder P p).firstID = 0 ∧ (eatOrder P p).secondID = P - 1) := by
  obtain ⟨h1, h2⟩ := eatOrder_ids P p
  have hne := ring_ne hP hid
  refine ⟨by omega, h1, h2, ?_⟩
  intro hlast
  have hz : (p.id + 1) % P = 0 := by
    have e : p.id + 1 = P := by omega
    rw [e, Nat.mod_self]
  refine ⟨hz, ?_, ?_⟩ <;> omega

/-- The lock order of the last of five philosophers: first 0, then 4. -/
theorem acquisition_order_witness :
    (eatOrder 5 ⟨4, 4, 0, 0⟩).firstID < (eatOrder 5 ⟨4, 4, 0, 0⟩).secondID ∧
    (eatOrder 5 ⟨4, 4, 0, 0⟩).firstID = 0 ∧ (eatOrder 5 ⟨4, 4, 0, 0⟩).secondID = 4 :=
  have h := acquisition_order 5 (by decide) ⟨4, 4, 0, 0⟩ (by decide)
  ⟨h.1, (h.2.2.2 rfl).2.1, (h.2.2.2 rfl).2.2⟩

/-- Claim C2.  With at least two philosophers and any cycle limit (in particular
every limit `≥ 1`), no reachable state of the program is a deadlock: if some
goroutine has not returned from `dine`, some goroutine can take a step. -/
theorem no_deadlock (P C : Nat) (hP : 2 ≤ P) (s : Sim) (hr : Reachable P C s)
    (hu : s.unfinished) : ∃ (i : Nat) (s' : Sim), step P C i s = some s' := by
  obtain ⟨i, hi⟩ := progress (C := C) hP (inv_reachable hr) hu
  exact ⟨i, Option.isSome_iff_exists.1 hi⟩

/-- Four of five philosophers hold their first chopstick and the fifth waits for
chopstick 0; this state is reachable and a step is possible in it. -/
theorem no_deadlock_witness :
    2 ≤ 5 ∧ Reachable 5 3 nearDeadlock ∧ nearDeadlock.unfinished ∧
      ∃ (i : Nat) (s' : Sim), step 5 3 i nearDeadlock = some s' :=
  have hr : Reachable 5 3 nearDeadlock :=
    reachable_runSchedule [0, 1, 2, 3, 4, 0, 1, 2, 3] Reachable.init (by decide)
  have hu : nearDeadlock.unfinished := ⟨4, _, rfl, by decide⟩
  ⟨by decide, hr, hu, no_deadlock 5 3 (by decide) nearDeadlock hr hu⟩

/-- Claim C3.  In every reachable state a chopstick is held by at most one
goroutine, a goroutine holds at most two chopsticks and none twice, and a
mutex is locked exactly when some goroutine holds it. -/
theorem mutual_exclusion (P C : Nat) (s : Sim) (hr : Reachable P C s) :
    (∀ (i j : Nat) (ti tj : Task) (c : Nat), s.tasks[i]? = some ti → s.tasks[j]? = some tj →
      i ≠ j → ti.holds c → ¬ tj.holds c) ∧
    (∀ (i : Nat) (t : Task), s.tasks[i]? = some t → t.defers.length ≤ 2 ∧ t.defers.Nodup) ∧
    (∀ c : Nat, s.chopsticks[c]? = some true ↔
      ∃ (i : Nat) (t : Task), s.tasks[i]? = some t ∧ t.holds c) := by
  have hinv := inv_reachable hr
  refine ⟨fun i j ti tj c hi hj hne hci hcj =>
    hne (hinv.locks.exclusive i j ti tj c hi hj hci hcj), ?_, ?_⟩
  · intro i t ht
    exact ⟨shape_length (hinv.shape i t ht), hinv.locks.nodup i t ht⟩
  · intro c
    constructor
    · exact hinv.locks.held_of_locked c
    · rintro ⟨i, t, ht, hh⟩
      exact hinv.locks.locked_of_held i t c ht hh

/-- The state in which philosopher 0 of five eats is reachable, and no chopstick
has two holders in it. -/
theorem mutual_exclusion_witness :
    Reachable 5 3 zeroEating ∧
    (⟨⟨0, 0, 1, 0⟩, PC.eating, [1, 0]⟩ : Task).holds 1 ∧
    ¬ (⟨⟨1, 1, 2, 0⟩, PC.dineLoop, []⟩ : Task).holds 1 ∧
    ((⟨⟨0, 0, 1, 0⟩, PC.eating, [1, 0]⟩ : Task).defers.length ≤ 2 ∧
      (⟨⟨0, 0, 1, 0⟩, PC.eating, [1, 0]⟩ : Task).defers.Nodup) :=
  have hr : Reachable 5 3 zeroEating :=
    reachable_runSchedule [0, 0, 0] Reachable.init (by decide)
  have h := mutual_exclusion 5 3 zeroEating hr
  ⟨hr, by decide, h.1 0 1 _ _ 1 rfl rfl (by decide) (by decide), h.2.1 0 _ rfl⟩

/-- Claim C4.  The function `main` builds `P` mutexes and `P` philosophers;
philosopher `i` has `id = i`, left chopstick `i` and right chopstick
`(i + 1) % P`, which is the left chopstick of philosopher `(i + 1) % P`.  With
`P ≥ 2` every chopstick `c` is the left or right chopstick of exactly two
philosophers, philosopher `c` and its distinct neighbour `j` with
`(j + 1) % P = c`. -/
theorem ring_topology (P : Nat) :
    (chopsticks P).length = P ∧ (philosophers P).length = P ∧
    (∀ i, i < P → ∃ p q : Philosopher,
      (philosophers P)[i]? = some p ∧ (philosophers P)[(i + 1) % P]? = some q ∧
      p.id = i ∧ p.leftChopstick = i ∧ p.rightChopstick = (i + 1) % P ∧
      p.rightChopstick = q.leftChopstick) ∧
    (2 ≤ P → ∀ c, c < P →
      ((philosophers P).filter (fun p => p.references c)).length = 2 ∧
      (∀ (j : Nat) (p : Philosopher), (philosophers P)[j]? = some p →
        (p.references c = true ↔ j = c ∨ (j + 1) % P = c)) ∧
      ∃ j, j < P ∧ j ≠ c ∧ (j + 1) % P = c) := by
  refine ⟨by simp [chopsticks], by simp [philosophers], ?_, ?_⟩
  · intro i hi
    have hlt : (i + 1) % P < P := Nat.mod_lt _ (by omega)
    exact ⟨_, _, philosophers_getElem? hi, philosophers_getElem? hlt, rfl, rfl, rfl, rfl⟩
  · intro hP c hc
    refine ⟨count_references hP hc, ?_, ?_⟩
    · intro j p hp
      obtain ⟨_, rfl⟩ := philosophers_wired hp
      simp [Philosopher.references]
    · obtain ⟨j, hj, hjc, hne, _⟩ := ring_pred hP hc
      exact ⟨j, hj, hne, hjc⟩

/-- With five philosophers, the right chopstick of philosopher 4 is the left
chopstick of philosopher 0, and chopstick 0 has two users. -/
theorem ring_topology_witness :
    (∃ p q : Philosopher, (philosophers 5)[4]? = some p ∧ (philosophers 5)[(4 + 1) % 5]? = some q ∧
      p.id = 4 ∧ p.leftChopstick = 4 ∧ p.rightChopstick = (4 + 1) % 5 ∧
      p.rightChopstick = q.leftChopstick) ∧
    ((philosophers 5).filter (fun p => p.references 0)).length = 2 :=
  ⟨(ring_topology 5).2.2.1 4 (by decide), ((ring_topology 5).2.2.2 (by decide) 0 (by decide)).1⟩

/-- Claim C5.  Run on a philosopher with `timesEaten = 0`, with every `Lock()`
returning, `dine` returns (any fuel of at least `7 * C + 1` steps is enough)
after exactly `C` think/eat cycles followed by one `wg.Done()`: it eats `C`
times, each time adding exactly 1 to `timesEaten`, ends with `timesEaten = C`,
signals completion once, as its last action, and takes no step afterwards.
Over the `P` philosophers built by `main` that is `P * C` meals.  In the
whole program, whatever the interleaving, no goroutine eats more than `C`
times and one that has returned has eaten exactly `C` times. -/
theorem dine_completes (P C : Nat) (p : Philosopher) (h0 : p.timesEaten = 0)
    (fuel : Nat) (hf : 7 * C + 1 ≤ fuel) :
    dine P C fuel p =
      (specCycles P p C ++ [Action.wgDone],
        { self := { p with timesEaten := C }, pc := PC.finished, defers := [] }) ∧
    (dine P C fuel p).1.count Action.eat = C ∧
    (dine P C fuel p).1.count Action.wgDone = 1 ∧
    (dine P C fuel p).1.getLast? = some Action.wgDone ∧
    (dine P C fuel p).2.self.timesEaten = C ∧
    Task.next P C (dine P C fuel p).2 = none ∧
    (∀ t : Task, t.pc = PC.eating → ∃ t' : Task, t.next P C = some (Action.eat, t') ∧
      t'.self.timesEaten = t.self.timesEaten + 1) ∧
    ((philosophers P).map (fun q => (dine P C fuel q).1.count Action.eat)).sum = P * C ∧
    (∀ s : Sim, Reachable P C s → ∀ (i : Nat) (t : Task), s.tasks[i]? = some t →
      t.self.timesEaten ≤ C ∧ (t.pc = PC.finished → t.self.timesEaten = C)) := by
  have hrun : ∀ q : Philosopher, q.timesEaten = 0 → dine P C fuel q =
      (specCycles P q C ++ [Action.wgDone],
        { self := { q with timesEaten := C }, pc := PC.finished, defers := [] }) := by
    intro q hq
    exact run_dine P C C fuel q (by omega) hf
  have hcount : ∀ q : Philosopher, q.timesEaten = 0 →
      (dine P C fuel q).1.count Action.eat = C := by
    intro q hq
    rw [hrun q hq]
    simp [List.count_append, count_eat_specCycles, List.count_cons]
  refine ⟨hrun p h0, hcount p h0, ?_, ?_, ?_, ?_, ?_, ?_,
    fun s hr i t ht => meals_le (meals_reachable hr i t ht)⟩
  · rw [hrun p h0]
    simp [List.count_append, count_wgDone_specCycles, List.count_cons]
  · rw [hrun p h0]
    simp
  · rw [hrun p h0]
  · rw [hrun p h0]
    rfl
  · intro t ht
    refine ⟨⟨{ t.self with timesEaten := t.self.timesEaten + 1 }, PC.returning, t.defers⟩,
      ?_, rfl⟩
    simp [Task.next, ht]
  · have : (philosophers P).map (fun q => (dine P C fuel q).1.count Action.eat) =
        List.replicate P C := by
      apply List.ext_getElem
      · simp [philosophers]
      · intro i h1 h2
        simp only [List.getElem_map, List.getElem_replicate]
        apply hcount
        simp [philosophers]
    rw [this]
    simp

/-- The run of the last of five philosophers with a cycle limit of 3, and
the fifteen meals of the default configuration. -/
theorem dine_completes_witness :
    dine numPhilosophers maxEatCycles 22 ⟨4, 4, 0, 0⟩ =
      ([Action.think, Action.lock 0, Action.lock 4, Action.eat, Action.unlock 4,
        Action.unlock 0, Action.eatReturn,
        Action.think, Action.lock 0, Action.lock 4, Action.eat, Action.unlock 4,
        Action.unlock 0, Action.eatReturn,
        Action.think, Action.lock 0, Action.lock 4, Action.eat, Action.unlock 4,
        Action.unlock 0, Action.eatReturn, Action.wgDone],
        { self := ⟨4, 4, 0, 3⟩, pc := PC.finished, defers := [] }) ∧
    ((philosophers numPhilosophers).map
      (fun q => (dine numPhilosophers maxEatCycles 22 q).1.count Action.eat)).sum = 15 :=
  have h := dine_completes numPhilosophers maxEatCycles ⟨4, 4, 0, 0⟩ rfl 22 (by decide)
  ⟨h.1, h.2.2.2.2.2.2.2.1⟩

/-- Claim C6.  One think/eat cycle of a philosopher that has not reached the cycle
limit, started at the loop of `dine` with nothing held, performs exactly:
think, lock first, lock second, eat (with `timesEaten + 1`), unlock second,
unlock first, return from `eat`; it is back at the loop of `dine` holding
nothing.  The chopsticks held before each of these steps and at the end are
listed in the second part. -/
theorem lifo_release (P C : Nat) (p : Philosopher) (h : p.timesEaten < C) :
    Task.run P C 7 (Task.start p) =
      (specCycle P p, Task.start { p with timesEaten := p.timesEaten + 1 }) ∧
    (List.range 8).map (fun k => (Task.run P C k (Task.start p)).2.defers) =
      [[], [], [(eatOrder P p).firstChopstick],
        [(eatOrder P p).secondChopstick, (eatOrder P p).firstChopstick],
        [(eatOrder P p).secondChopstick, (eatOrder P p).firstChopstick],
        [(eatOrder P p).firstChopstick], [], []] := by
  constructor
  · have := run_cycle P C 0 p h
    simpa [Task.run] using this
  · simp [List.range, List.range.loop, Task.run, Task.next, Task.start, h]

/-- The third cycle of the last of five philosophers. -/
theorem lifo_release_witness :
    Task.run 5 3 7 (Task.start ⟨4, 4, 0, 2⟩) =
      ([Action.think, Action.lock 0, Action.lock 4, Action.eat, Action.unlock 4,
        Action.unlock 0, Action.eatReturn], Task.start ⟨4, 4, 0, 3⟩) :=
  (lifo_release 5 3 ⟨4, 4, 0, 2⟩ (by decide)).1

/-- Claim C7 as stated fails.  With one philosopher and a cycle limit of 3, `main`
starts a goroutine, the goroutine locks chopstick 0, and then no step is
possible; with five philosophers and a cycle limit of 0, `main` starts five
goroutines, which all return normally. -/
theorem invalid_config_not_rejected :
    (main 1).tasks = [Task.start ⟨0, 0, 0, 0⟩] ∧
    runSchedule 1 3 [0, 0] (main 1) = some selfDeadlock ∧
    selfDeadlock.chopsticks[0]? = some true ∧
    step 1 3 0 selfDeadlock = none ∧
    (main 5).tasks.length = 5 ∧
    runSchedule 5 0 [0, 1, 2, 3, 4] (main 5) = some allFinished := by
  decide

/-- Claim C7, amended.  For every ring size `P ≥ 1` (with a ring size of 0 the
source does not build: `% numPhilosophers` is a constant division by zero)
and every cycle limit, the program checks neither value: `main` starts `P`
goroutines over `P` mutexes.  With one philosopher and a cycle limit `≥ 1`
the state in which the goroutine holds chopstick 0 and waits for it again is
reachable, and nothing can step in it; with a cycle limit of 0 no mutex is
ever locked. -/
theorem no_validation (P C : Nat) (hP : 1 ≤ P) :
    ((main P).tasks = (philosophers P).map Task.start ∧ (main P).tasks.length = P ∧
      (main P).chopsticks.length = P ∧ (main P).tasks ≠ []) ∧
    (1 ≤ C → Reachable 1 C selfDeadlock ∧ selfDeadlock.unfinished ∧
      ∀ i, step 1 C i selfDeadlock = none) ∧
    (∀ s, Reachable P 0 s → ∀ c : Nat, s.chopsticks[c]? ≠ some true) := by
  have hlen : (main P).tasks.length = P := by simp [main, philosophers]
  have hne : (main P).tasks ≠ [] := by
    intro h
    rw [h] at hlen
    simp at hlen
    omega
  refine ⟨⟨rfl, hlen, by simp [main, chopsticks], hne⟩, ?_, ?_⟩
  · intro hC
    refine ⟨?_, ⟨0, _, rfl, by decide⟩, ?_⟩
    · apply reachable_runSchedule [0, 0] Reachable.init
      have hC' : 0 < C := hC
      simp [runSchedule, step, main, philosophers, chopsticks, Task.start, Task.next,
        eatOrder, hC', selfDeadlock, List.range, List.range.loop]
    · intro i
      cases i with
      | zero => simp [step, selfDeadlock, Task.next, eatOrder]
      | succ n => simp [step, selfDeadlock]
  · intro s hr c hl
    have hinv := inv_reachable hr
    obtain ⟨i, t, ht, hh⟩ := hinv.locks.held_of_locked c hl
    have hsh := hinv.shape i t ht
    rcases idle_reachable hr i t ht with hpc | hpc
    · simp only [Task.Shape, hpc] at hsh
      simp [Task.holds, hsh] at hh
    · simp only [Task.Shape, hpc] at hsh
      simp [Task.holds, hsh] at hh

/-- With one philosopher and a cycle limit of 3 the program reaches a state in
which nothing can step; with five philosophers and a cycle limit of 0 it
reaches the state in which all have returned, with chopstick 0 unlocked. -/
theorem no_validation_witness :
    1 ≤ 1 ∧ (main 1).tasks ≠ [] ∧
    (Reachable 1 3 selfDeadlock ∧ selfDeadlock.unfinished ∧
      ∀ i, step 1 3 i selfDeadlock = none) ∧
    1 ≤ 5 ∧ Reachable 5 0 allFinished ∧ allFinished.chopsticks[0]? ≠ some true :=
  have hr : Reachable 5 0 allFinished :=
    reachable_runSchedule [0, 1, 2, 3, 4] Reachable.init (by decide)
  ⟨by decide, (no_validation 1 3 (by decide)).1.2.2.2,
    (no_validation 1 3 (by decide)).2.1 (by decide),
    by decide, hr, (no_validation 5 0 (by decide)).2.2 allFinished hr 0⟩

/-- Claim C8.  With at least two philosophers, in no reachable state do the
philosophers `i` and `(i + 1) % P` both hold their two chopsticks. -/
theorem adjacent_not_both_using (P C : Nat) (hP : 2 ≤ P) (s : Sim) (hr : Reachable P C s)
    (i : Nat) : ¬ (s.isUsing i ∧ s.isUsing ((i + 1) % P)) := by
  rintro ⟨⟨t, ht, -, hr1⟩, ⟨u, hu, hl2, -⟩⟩
  have hinv := inv_reachable hr
  have hi := task_index_lt hinv ht
  rw [(hinv.wired _ _ ht).2.2] at hr1
  rw [(hinv.wired _ _ hu).2.1] at hl2
  exact ring_ne hP hi (hinv.locks.exclusive _ _ _ _ _ ht hu hr1 hl2)

/-- Philosophers 0 and 2 of five can eat at the same time; philosophers 0 and 1
cannot. -/
theorem adjacent_not_both_using_witness :
    2 ≤ 5 ∧ Reachable 5 3 twoEating ∧ twoEating.isUsing 0 ∧ twoEating.isUsing 2 ∧
      ¬ (twoEating.isUsing 0 ∧ twoEating.isUsing ((0 + 1) % 5)) :=
  have hr : Reachable 5 3 twoEating :=
    reachable_runSchedule [0, 0, 0, 2, 2, 2, 1, 4] Reachable.init (by decide)
  ⟨by decide, hr, ⟨_, rfl, by decide, by decide⟩, ⟨_, rfl, by decide, by decide⟩,
    adjacent_not_both_using 5 3 (by decide) twoEating hr 0⟩

/-- Claim C9.  With two philosophers, both choose chopstick 0 as the first and
chopstick 1 as the second, and in every reachable state at most one of the
two goroutines holds any chopstick. -/
theorem two_philosophers_serialized :
    (philosophers 2).map (eatOrder 2) =
      [{ firstChopstick := 0, firstID := 0, secondChopstick := 1, secondID := 1 },
       { firstChopstick := 0, firstID := 0, secondChopstick := 1, secondID := 1 }] ∧
    ∀ (C : Nat) (s : Sim), Reachable 2 C s →
      ∀ (i j : Nat) (ti tj : Task), s.tasks[i]? = some ti → s.tasks[j]? = some tj →
        i ≠ j → ti.defers ≠ [] → tj.defers = [] := by
  refine ⟨by decide, ?_⟩
  intro C s hr i j ti tj hi hj hij hni
  by_contra hnj
  apply hij
  have hinv := inv_reachable hr
  have key : ∀ (k : Nat) (t : Task), s.tasks[k]? = some t → t.defers ≠ [] → t.holds 0 := by
    intro k t hk hne
    have hm := shape_first_mem (hinv.shape k t hk) hne
    have hlt := task_index_lt hinv hk
    rw [(eatOrder_wired (hinv.wired k t hk)).1] at hm
    have : min k ((k + 1) % 2) = 0 := by omega
    rwa [this] at hm
  exact hinv.locks.exclusive i j ti tj 0 hi hj (key i ti hi hni) (key j tj hj hnj)

/-- With two philosophers, philosopher 1 holds chopstick 0 and philosopher 0,
waiting for the same chopstick, cannot step. -/
theorem two_philosophers_serialized_witness :
    Reachable 2 3 oneHolding ∧ step 2 3 0 oneHolding = none ∧
    (⟨⟨1, 1, 0, 0⟩, PC.lockSecond, [0]⟩ : Task).defers ≠ [] ∧
    (⟨⟨0, 0, 1, 0⟩, PC.lockFirst, []⟩ : Task).defers = [] :=
  have hr : Reachable 2 3 oneHolding :=
    reachable_runSchedule [0, 1, 1] Reachable.init (by decide)
  ⟨hr, by decide, by decide,
    two_philosophers_serialized.2 3 oneHolding hr 1 0 _ _ rfl rfl (by decide) (by decide)⟩

/-- Claim C10.  For the philosopher `i` built by `main`, `P ≥ 2`, the mutex `eat`
locks first is `chopsticks[firstID]` with `firstID = min i ((i + 1) % P)`, the
mutex it locks second is `chopsticks[secondID]` with
`secondID = max i ((i + 1) % P)`, the two are distinct, and these are the
mutexes the steps at the two `Lock()` calls lock.  The first mutex is the
right chopstick exactly for `i = P - 1` and the left one for every other
philosopher. -/
theorem locks_follow_ids (P C : Nat) (hP : 2 ≤ P) (i : Nat) (p : Philosopher)
    (hp : (philosophers P)[i]? = some p) :
    (eatOrder P p).firstChopstick = (eatOrder P p).firstID ∧
    (eatOrder P p).firstID = min i ((i + 1) % P) ∧
    (eatOrder P p).secondChopstick = (eatOrder P p).secondID ∧
    (eatOrder P p).secondID = max i ((i + 1) % P) ∧
    (eatOrder P p).firstChopstick ≠ (eatOrder P p).secondChopstick ∧
    (∀ ds : List Nat, Task.next P C ⟨p, PC.lockFirst, ds⟩ =
      some (Action.lock (min i ((i + 1) % P)),
        ⟨p, PC.lockSecond, min i ((i + 1) % P) :: ds⟩)) ∧
    (∀ ds : List Nat, Task.next P C ⟨p, PC.lockSecond, ds⟩ =
      some (Action.lock (max i ((i + 1) % P)),
        ⟨p, PC.eating, max i ((i + 1) % P) :: ds⟩)) ∧
    ((eatOrder P p).firstChopstick = p.rightChopstick ↔ i = P - 1) ∧
    ((eatOrder P p).firstChopstick = p.leftChopstick ↔ i ≠ P - 1) := by
  obtain ⟨hi, rfl⟩ := philosophers_wired hp
  have hw := eatOrder_wired (P := P) (i := i)
    (t := Task.start ⟨i, i, (i + 1) % P, 0⟩) ⟨rfl, rfl, rfl⟩
  simp only [Task.start] at hw
  obtain ⟨h1, h2, h3, h4⟩ := hw
  have hne := ring_ne hP hi
  have hlt := ring_lt hP i
  have hlast : i = P - 1 ↔ (i + 1) % P < i := by
    rcases Nat.lt_or_ge (i + 1) P with h | h
    · rw [Nat.mod_eq_of_lt h]; omega
    · have e : i + 1 = P := by omega
      rw [e, Nat.mod_self]; omega
  refine ⟨by rw [h1, h2], h2, by rw [h3, h4], h4, by rw [h1, h3]; omega, ?_, ?_, ?_, ?_⟩
  · intro ds; simp [Task.next, h1]
  · intro ds; simp [Task.next, h3]
  · rw [h1]; simp only; omega
  · rw [h1]; simp only; omega

/-- The last of five philosophers locks its right chopstick, number 0, first. -/
theorem locks_follow_ids_witness :
    (eatOrder 5 ⟨4, 4, 0, 0⟩).firstChopstick = 0 ∧ (eatOrder 5 ⟨4, 4, 0, 0⟩).secondChopstick = 4 ∧
    ((eatOrder 5 ⟨4, 4, 0, 0⟩).firstChopstick = (⟨4, 4, 0, 0⟩ : Philosopher).rightChopstick ↔
      4 = 5 - 1) :=
  have h := locks_follow_ids 5 3 (by decide) 4 ⟨4, 4, 0, 0⟩ (by decide)
  ⟨h.1.trans h.2.1, h.2.2.1.trans h.2.2.2.1, h.2.2.2.2.2.2.2.1⟩

end DiningPhilosophers
